import Mathlib

/-!
Shallow embedding of the DHCP lease query engine of `src/op_mode/show_dhcp.py`
(vyos-1x).  Times are modelled as integers counting microseconds since the Unix
epoch (Python `datetime` values in UTC); Python's arbitrary-precision integers
are `Int`/`Nat`; Python dictionaries are association lists that keep first-insertion
order and overwrite in place, exactly as CPython dicts do; reading the lease
file is modelled by an explicit `journal` input holding the parsed records.
-/

/-- Association-list lookup, modelling Python `dict` access (`d[k]` / `k in d`). -/
def lookupAL {α : Type} (k : String) : List (String × α) → Option α
  | [] => none
  | (k', v) :: rest => if k' == k then some v else lookupAL k rest

/-- Module-level constant `lease_file` of `show_dhcp.py`. -/
def lease_file : String := "/config/dhcpd.leases"

/-- Module-level constant `pool_key` of `show_dhcp.py`. -/
def pool_key : String := "shared-networkname"

/-- Module-level constant `lease_valid_states` of `show_dhcp.py`. -/
def lease_valid_states : List String :=
  ["all", "active", "free", "expired", "released", "abandoned", "reset", "backup"]

/-- The keys of the module-level `lease_display_fields` ordered dict (insertion order). -/
def lease_display_fields_keys : List String :=
  ["ip", "hardware_address", "state", "start", "end", "remaining", "pool", "hostname"]

/-- A raw lease record as produced by `IscDhcpLeases(...).get()` (the external
`isc_dhcp_leases` parser).  `start` is always present on a parsed record; `end`
may be absent (`ends never`), modelled as `none`.  Timestamps are UTC
microseconds since the epoch. -/
structure Lease where
  ip : String
  start : Int
  endT : Option Int
  binding_state : String
  ethernet : String
  hostname : String
  sets : List (String × String)
  data : List (String × String)
  deriving DecidableEq

/-- `in_pool` of `show_dhcp.py`: the lease's `sets` mapping holds `pool_key`
and its value equals the requested pool name. -/
def in_pool (lease : Lease) (pool : String) : Bool :=
  match lookupAL pool_key lease.sets with
  | some v => v == pool
  | none => false

/-- Microseconds per day. -/
def usecPerDay : Int := 86400000000

/-- Microseconds per second. -/
def usecPerSec : Int := 1000000

/-- `utc_to_local` of `show_dhcp.py`: `datetime.fromtimestamp` re-interprets the
UTC timestamp in the local zone, i.e. shifts it by the local UTC offset `tz`
(microseconds). -/
def utc_to_local (tz t : Int) : Int := t + tz

/-- Civil date (year, month, day) from days since the epoch
(standard Gregorian `civil_from_days` computation, as `datetime` renders it). -/
def civilFromDays (z0 : Int) : Int × Int × Int :=
  let z := z0 + 719468
  let era := Int.fdiv z 146097
  let doe := z - era * 146097
  let yoe := Int.fdiv (doe - Int.fdiv doe 1460 + Int.fdiv doe 36524 - Int.fdiv doe 146096) 365
  let y := yoe + era * 400
  let doy := doe - (365 * yoe + Int.fdiv yoe 4 - Int.fdiv yoe 100)
  let mp := Int.fdiv (5 * doy + 2) 153
  let d := doy - Int.fdiv (153 * mp + 2) 5 + 1
  let m := mp + (if mp < 10 then 3 else -9)
  (y + (if m ≤ 2 then 1 else 0), m, d)

/-- Zero-pad to two digits (strftime `%m`, `%d`, `%H`, `%M`, `%S`). -/
def pad2 (n : Int) : String := if n < 10 then "0" ++ toString n else toString n

/-- Zero-pad to four digits (strftime `%Y`). -/
def pad4 (n : Int) : String :=
  if n < 10 then "000" ++ toString n
  else if n < 100 then "00" ++ toString n
  else if n < 1000 then "0" ++ toString n
  else toString n

/-- `strftime("%Y/%m/%d %H:%M:%S")` of the datetime at `t` microseconds since
the epoch. -/
def fmtDatetime (t : Int) : String :=
  let days := Int.fdiv t usecPerDay
  let rem := t - days * usecPerDay
  let secs := Int.fdiv rem usecPerSec
  let h := Int.fdiv secs 3600
  let mi := Int.fdiv (secs - h * 3600) 60
  let s := secs - h * 3600 - mi * 60
  match civilFromDays days with
  | (y, mo, d) =>
    pad4 y ++ "/" ++ pad2 mo ++ "/" ++ pad2 d ++ " " ++ pad2 h ++ ":" ++ pad2 mi ++ ":" ++ pad2 s

/-- Smallest timestamp `datetime` can represent (0001-01-01 00:00:00, in usec). -/
def datetimeMinUsec : Int := -62135596800000000

/-- Largest timestamp `datetime` can represent (9999-12-31 23:59:59.999999, in usec). -/
def datetimeMaxUsec : Int := 253402300799999999

/-- Timestamp rendering that fails (raises, modelled as `none`) outside the
range `datetime` can represent — the failure the `try` blocks of
`get_lease_data` swallow. -/
def fmtDatetimeOpt (t : Int) : Option String :=
  if datetimeMinUsec ≤ t ∧ t ≤ datetimeMaxUsec then some (fmtDatetime t) else none

/-- `str(timedelta).split('.')[0]` for a duration of `usec` microseconds:
Python's `timedelta` normalises to whole days plus a nonnegative remainder, and
dropping the text after `'.'` truncates to whole seconds. -/
def formatTD (usec : Int) : String :=
  let totalSec := Int.fdiv usec usecPerSec
  let days := Int.fdiv totalSec 86400
  let rem := totalSec - days * 86400
  let h := Int.fdiv rem 3600
  let mi := Int.fdiv (rem - h * 3600) 60
  let s := rem - h * 3600 - mi * 60
  let hms := toString h ++ ":" ++ pad2 mi ++ ":" ++ pad2 s
  if days == 0 then hms
  else if days == 1 then "1 day, " ++ hms
  else toString days ++ " days, " ++ hms

/-- The dictionary built by `get_lease_data` (all values are strings). -/
structure LeaseData where
  start : String
  endT : String
  remaining : String
  tstp : String
  tsfp : String
  atsfp : String
  cltt : String
  hardware_address : String
  hostname : String
  state : String
  ip : String
  pool : String
  deriving DecidableEq

/-- `get_lease_data` of `show_dhcp.py`.  `tz` is the local UTC offset used by
`utc_to_local`; `now` is `datetime.utcnow()` in microseconds.  Every `try`
block of the source degrades its own field to `""` on failure, modelled by the
per-field `Option` handling here. -/
def get_lease_data (tz now : Int) (lease : Lease) : LeaseData :=
  { start := (fmtDatetimeOpt (utc_to_local tz lease.start)).getD ""
  , endT :=
      match lease.endT with
      | none => ""
      | some e => (fmtDatetimeOpt (utc_to_local tz e)).getD ""
  , remaining :=
      match lease.endT with
      | none => ""
      | some e =>
        let d := e - now
        if 0 ≤ Int.fdiv d usecPerDay then formatTD d else ""
  , tstp := (lookupAL "tstp" lease.data).getD ""
  , tsfp := (lookupAL "tsfp" lease.data).getD ""
  , atsfp := (lookupAL "atsfp" lease.data).getD ""
  , cltt := (lookupAL "cltt" lease.data).getD ""
  , hardware_address := lease.ethernet
  , hostname := lease.hostname
  , state := lease.binding_state
  , ip := lease.ip
  , pool := (lookupAL pool_key lease.sets).getD "" }

/-- `sorted(leases, key=lambda lease: lease.start)` — Python's stable ascending
sort; modelled by the stable `List.insertionSort` (stable sorts of a total
preorder agree on every input, so any stable sort is a faithful model of
CPython's timsort). -/
def sortByStart (ls : List Lease) : List Lease :=
  List.insertionSort (fun a b => a.start ≤ b.start) ls

/-- `leases_dict[k] = v` on a CPython dict: overwriting keeps the key's
position, a fresh key is appended. -/
def insertAL (m : List (String × Lease)) (k : String) (v : Lease) : List (String × Lease) :=
  match m with
  | [] => [(k, v)]
  | (k', v') :: rest => if k' == k then (k', v) :: rest else (k', v') :: insertAL rest k v

/-- The dedup loop of `get_leases`: `for lease in leases: leases_dict[lease.ip] = lease`. -/
def dedupFold (ls : List Lease) : List (String × Lease) :=
  ls.foldl (fun m l => insertAL m l.ip l) []

/-- The resolver step of `get_leases`: sort ascending by `start`, then fold into
a dict keyed by address, and take `leases_dict.values()`. -/
def resolveLeases (ls : List Lease) : List Lease :=
  (dedupFold (sortByStart ls)).map Prod.snd

/-- Substring test on char lists (`needle` occurs inside `hay`). -/
def subListAt (needle : List Char) : List Char → Bool
  | [] => needle.isEmpty
  | c :: rest => needle.isPrefixOf (c :: rest) || subListAt needle rest

/-- Python `x in s` for strings: substring containment. -/
def strContainsSub (hay needle : String) : Bool := subListAt needle.toList hay.toList

/-- The `state` argument of `get_leases` is passed either as a list of state
names (the `--leases` path) or as the bare string `'active'` (the statistics
path); Python's `in` means membership for the former and substring containment
for the latter. -/
inductive StateArg where
  | list (ss : List String)
  | str (s : String)
  deriving DecidableEq

/-- Python `x in state` for either shape of the `state` argument. -/
def stateContains : StateArg → String → Bool
  | .list ss, x => ss.contains x
  | .str s, x => strContainsSub s x

/-- The state-filter step of `get_leases`:
`if 'all' not in state: leases = list(filter(lambda x: x.binding_state in state, leases))`. -/
def stateFilterStep (state : StateArg) (ls : List Lease) : List Lease :=
  if !(stateContains state "all") then
    ls.filter (fun x => stateContains state x.binding_state)
  else ls

/-- One dotted-quad octet: decimal digits only, at most three, value ≤ 255
(model of the external `ipaddress` parser's octet rule). -/
def parseOctet (cs : List Char) : Option Nat :=
  if cs.length = 0 || cs.length > 3
      || !cs.all (fun c => 48 ≤ c.toNat && c.toNat ≤ 57) then none
  else
    let v := cs.foldl (fun acc c => acc * 10 + (c.toNat - 48)) 0
    if v ≤ 255 then some v else none

/-- Split a character list at every dot (the grouping `"a.b".split('.')` does). -/
def splitDot : List Char → List (List Char)
  | [] => [[]]
  | c :: rest =>
    if c.toNat = 46 then [] :: splitDot rest
    else
      match splitDot rest with
      | [] => [[c]]
      | g :: gs => (c :: g) :: gs

/-- `int(ip_address(s))` for an IPv4 dotted quad, `none` when unparsable. -/
def ipv4ToIntOpt (s : String) : Option Nat :=
  match (splitDot s.toList).mapM parseOctet with
  | some [a, b, c, d] => some (((a * 256 + b) * 256 + c) * 256 + d)
  | _ => none

/-- Total wrapper around `ipv4ToIntOpt` used as a sort key (journal addresses
are valid by the parser's contract). -/
def ip_address_int (s : String) : Nat := (ipv4ToIntOpt s).getD 0

/-- Python string `<=`: lexicographic comparison by code point. -/
def strLeList : List Char → List Char → Bool
  | [], _ => true
  | _ :: _, [] => false
  | a :: as, b :: bs =>
    if a.toNat < b.toNat then true
    else if b.toNat < a.toNat then false
    else strLeList as bs

/-- Python `<=` on strings. -/
def pyStrLe (a b : String) : Bool := strLeList a.toList b.toList

/-- `l[sort]`: dictionary access on the `get_lease_data` result by field name. -/
def LeaseData.get (d : LeaseData) (k : String) : String :=
  if k == "ip" then d.ip
  else if k == "hardware_address" then d.hardware_address
  else if k == "state" then d.state
  else if k == "start" then d.start
  else if k == "end" then d.endT
  else if k == "remaining" then d.remaining
  else if k == "pool" then d.pool
  else if k == "hostname" then d.hostname
  else if k == "tstp" then d.tstp
  else if k == "tsfp" then d.tsfp
  else if k == "atsfp" then d.atsfp
  else if k == "cltt" then d.cltt
  else ""

/-- The output-sort step of `get_leases`: numeric address order for `sort == 'ip'`,
otherwise Python's string order on the requested field. -/
def finalSort (sortKey : String) (ds : List LeaseData) : List LeaseData :=
  if sortKey == "ip" then
    List.insertionSort (fun a b => ip_address_int a.ip ≤ ip_address_int b.ip) ds
  else
    List.insertionSort
      (fun a b => pyStrLe (LeaseData.get a sortKey) (LeaseData.get b sortKey) = true) ds

/-- The external configuration capability consumed by `show_dhcp.py`
(`Config().exists_effective` / `list_effective_nodes` / `return_effective_value`
on the `service dhcp-server shared-network-name ...` paths). -/
structure Config where
  poolExists : String → Bool
  listSubnets : String → List String
  listRanges : String → String → List String
  rangeStart : String → String → String → String
  rangeStop : String → String → String → String

/-- Outcome of `get_leases`: either the computed list, or the early
`print("Pool ... does not exist."); exit(0)` path. -/
inductive GetLeasesResult where
  | noSuchPool (msg : String)
  | ok (leases : List LeaseData)
  deriving DecidableEq

/-- The lease records a caller receives: none on the early-exit path. -/
def GetLeasesResult.emitted : GetLeasesResult → List LeaseData
  | .noSuchPool _ => []
  | .ok ls => ls

/-- Process exit status of either outcome (`exit(0)` on the no-such-pool path,
normal termination otherwise). -/
def GetLeasesResult.exitCode : GetLeasesResult → Nat
  | .noSuchPool _ => 0
  | .ok _ => 0

/-- `get_leases` of `show_dhcp.py`.  `journal` is what
`IscDhcpLeases(lease_file).get()` parses from the lease file; the `leases`
parameter is immediately overwritten by the source, which is kept here
verbatim.  `tz`/`now` are the ambient local offset and `datetime.utcnow()`. -/
def get_leases (config : Config) (journal : List Lease) (leases : List Lease)
    (state : StateArg) (pool : Option String) (sortKey : String) (tz now : Int) :
    GetLeasesResult :=
  let leases := journal
  let leases := stateFilterStep state leases
  match pool with
  | some p =>
    if config.poolExists p then
      let leases := leases.filter (fun x => in_pool x p)
      .ok (finalSort sortKey ((resolveLeases leases).map (get_lease_data tz now)))
    else
      .noSuchPool ("Pool " ++ p ++ " does not exist.")
  | none =>
    .ok (finalSort sortKey ((resolveLeases leases).map (get_lease_data tz now)))

/-- Python `set(a) < set(b)` on string lists: strict subset of the element sets. -/
def pySetLtStr (a b : List String) : Bool :=
  a.all (fun x => b.contains x) && b.any (fun y => !(a.contains y))

/-- Outcome of the `__main__` argument validation. -/
inductive ArgCheck where
  | invalidSortKey (valid : List String)
  | invalidState (valid : List String)
  | accepted
  deriving DecidableEq

/-- The `__main__` validation of `--sort` and `--state`, in source order:
`args.sort not in lease_display_fields.keys()` rejects first, then
`not set(args.state) < set(lease_valid_states)` rejects, else the query
proceeds. -/
def validateArgs (sortKey : String) (state : List String) : ArgCheck :=
  if !(lease_display_fields_keys.contains sortKey) then
    .invalidSortKey lease_display_fields_keys
  else if !(pySetLtStr state lease_valid_states) then
    .invalidState lease_valid_states
  else
    .accepted

/-- `get_pool_size` of `show_dhcp.py`: accumulate `(stop - start + 1)` over
every range of every subnet of the pool, with exact integer address arithmetic. -/
def get_pool_size (config : Config) (pool : String) : Int :=
  (config.listSubnets pool).foldl
    (fun size s =>
      (config.listRanges pool s).foldl
        (fun size r =>
          size + ((ip_address_int (config.rangeStop pool s r) : Int)
                   - (ip_address_int (config.rangeStart pool s r) : Int) + 1))
        size)
    0

/-- Python 3 `round` to an integer: round-half-to-even (the float quotient of
the source is modelled as an exact rational). -/
def pythonRound (x : ℚ) : Int :=
  let f := Rat.floor x
  let frac := x - (f : ℚ)
  if frac < 1/2 then f
  else if (1/2 : ℚ) < frac then f + 1
  else if f % 2 = 0 then f else f + 1

/-- One row of the statistics output. -/
structure PoolStat where
  pool : String
  size : Int
  leases : Int
  available : Int
  percentage : Int
  deriving DecidableEq

/-- The body of the `__main__` statistics loop for one pool `p`:
`size = get_pool_size(conf, p)`, `leases = len(get_leases(conf, lease_file,
state='active', pool=p))` (note: `state` is the bare string `'active'` and the
`leases` argument is the `lease_file` path, which `get_leases` ignores),
`use_percentage = round(leases / size * 100) if size != 0 else 0`. -/
def pool_stat (config : Config) (journal : List Lease) (tz now : Int) (p : String) : PoolStat :=
  let size := get_pool_size config p
  let leases : Int :=
    ((get_leases config journal [] (.str "active") (some p) "ip" tz now).emitted).length
  let use_percentage : Int :=
    if size ≠ 0 then pythonRound ((leases : ℚ) / (size : ℚ) * 100) else 0
  { pool := p, size := size, leases := leases,
    available := size - leases, percentage := use_percentage }

/-- Modelled from the spec: the data flow the specification describes
(Parser → Resolver → Enricher → Filter/Sort), in which the resolver consumes
the FULL parsed journal before any state or pool filtering.  Used only to
compare against `get_leases`, which is the code's actual order. -/
def spec_get_leases (config : Config) (journal : List Lease)
    (state : StateArg) (pool : Option String) (sortKey : String) (tz now : Int) :
    GetLeasesResult :=
  let resolved := resolveLeases journal
  let filtered := stateFilterStep state resolved
  match pool with
  | some p =>
    if config.poolExists p then
      .ok (finalSort sortKey ((filtered.filter (fun x => in_pool x p)).map (get_lease_data tz now)))
    else
      .noSuchPool ("Pool " ++ p ++ " does not exist.")
  | none =>
    .ok (finalSort sortKey (filtered.map (get_lease_data tz now)))

/-- The state- and pool-filtered journal, the sequence the code's resolver
actually consumes. -/
def preFiltered (config : Config) (state : StateArg) (pool : Option String)
    (journal : List Lease) : List Lease :=
  let ls := stateFilterStep state journal
  match pool with
  | some p => ls.filter (fun x => in_pool x p)
  | none => ls

/-- A configuration in which no pool exists. -/
def cfgNone : Config :=
  { poolExists := fun _ => false
  , listSubnets := fun _ => []
  , listRanges := fun _ _ => []
  , rangeStart := fun _ _ _ => ""
  , rangeStop := fun _ _ _ => "" }

/-- A configuration in which every pool exists but has no subnets. -/
def cfgAll : Config :=
  { poolExists := fun _ => true
  , listSubnets := fun _ => []
  , listRanges := fun _ _ => []
  , rangeStart := fun _ _ _ => ""
  , rangeStop := fun _ _ _ => "" }

/-- A configuration with one pool `LAN` holding one subnet with the ranges
`[192.0.2.10, 192.0.2.20]` and `[192.0.2.30, 192.0.2.30]`. -/
def cfgLan : Config :=
  { poolExists := fun q => q == "LAN"
  , listSubnets := fun q => if q == "LAN" then ["192.0.2.0/24"] else []
  , listRanges := fun q s => if q == "LAN" && s == "192.0.2.0/24" then ["0", "1"] else []
  , rangeStart := fun _ _ r => if r == "0" then "192.0.2.10" else "192.0.2.30"
  , rangeStop := fun _ _ r => if r == "0" then "192.0.2.20" else "192.0.2.30" }

/-- A journal record: address 10.0.0.5, started at the epoch, state `active`. -/
def exLeaseA : Lease :=
  { ip := "10.0.0.5", start := 0, endT := none, binding_state := "active"
  , ethernet := "00:53:00:00:00:01", hostname := "hosta", sets := [], data := [] }

/-- A later record for the same address: started one minute later, state `expired`. -/
def exLeaseB : Lease :=
  { ip := "10.0.0.5", start := 60000000, endT := none, binding_state := "expired"
  , ethernet := "00:53:00:00:00:01", hostname := "hostb", sets := [], data := [] }

/-- A two-record journal in which the newest record for 10.0.0.5 is `expired`. -/
def exJournal : List Lease := [exLeaseA, exLeaseB]

/-- A record dictionary holding only an address (all other fields empty). -/
def mkIpOnly (s : String) : LeaseData :=
  { start := "", endT := "", remaining := "", tstp := "", tsfp := "", atsfp := ""
  , cltt := "", hardware_address := "", hostname := "", state := "", ip := s, pool := "" }

/-- First-some choice on options (used to state dict-fold lookups). -/
def oElse {α : Type} (o d : Option α) : Option α :=
  match o with
  | some v => some v
  | none => d

/-- `0 ≤ days` of a `timedelta` holds exactly when the duration is nonnegative. -/
lemma fdiv_day_nonneg_iff (d : Int) : 0 ≤ Int.fdiv d usecPerDay ↔ 0 ≤ d := by
  rw [Int.fdiv_eq_ediv _ (by norm_num [usecPerDay] : (0:Int) ≤ usecPerDay)]
  constructor
  · intro h
    by_contra hneg
    push_neg at hneg
    have := Int.ediv_neg' hneg (by norm_num [usecPerDay] : (0:Int) < usecPerDay)
    omega
  · intro h
    exact Int.ediv_nonneg h (by norm_num [usecPerDay])

/-- C10: the result of `get_leases` is independent of the value passed as its
`leases` parameter — the function overwrites it with a fresh read of the lease
file before any use, so two invocations differing only in that argument return
identical results. -/
theorem get_leases_ignores_leases_argument (config : Config) (journal l1 l2 : List Lease)
    (state : StateArg) (pool : Option String) (sortKey : String) (tz now : Int) :
    get_leases config journal l1 state pool sortKey tz now
      = get_leases config journal l2 state pool sortKey tz now := rfl

/-- C4: querying a pool the configuration reports as non-existent yields the
informational "no such pool" outcome with zero lease records and exit status 0
(a recoverable condition, not a fatal error). -/
theorem unknown_pool_recoverable (config : Config) (journal junk : List Lease)
    (state : StateArg) (p : String) (sortKey : String) (tz now : Int)
    (h : config.poolExists p = false) :
    get_leases config journal junk state (some p) sortKey tz now
        = .noSuchPool ("Pool " ++ p ++ " does not exist.")
    ∧ (get_leases config journal junk state (some p) sortKey tz now).emitted = []
    ∧ (get_leases config journal junk state (some p) sortKey tz now).exitCode = 0 := by
  refine ⟨?_, ?_, ?_⟩ <;> simp [get_leases, h, GetLeasesResult.emitted, GetLeasesResult.exitCode]

/-- Witness for C4 at a concrete query against an empty configuration. -/
theorem unknown_pool_recoverable_witness :
    get_leases cfgNone [] [] (.list ["active"]) (some "LAN") "ip" 0 0
        = .noSuchPool "Pool LAN does not exist."
    ∧ (get_leases cfgNone [] [] (.list ["active"]) (some "LAN") "ip" 0 0).emitted = []
    ∧ (get_leases cfgNone [] [] (.list ["active"]) (some "LAN") "ip" 0 0).exitCode = 0 :=
  unknown_pool_recoverable cfgNone [] [] (.list ["active"]) "LAN" "ip" 0 0 rfl

/-- C6: the enricher's `remaining` field is the duration from now to `end`
rendered truncated to whole seconds; an absent `end` or a strictly negative
duration yields the empty string, never a negative-duration string. -/
theorem remaining_sign_handling (tz now : Int) (l : Lease) :
    (l.endT = none → (get_lease_data tz now l).remaining = "")
    ∧ (∀ e : Int, l.endT = some e → e - now < 0 →
        (get_lease_data tz now l).remaining = "")
    ∧ (∀ e : Int, l.endT = some e → 0 ≤ e - now →
        (get_lease_data tz now l).remaining = formatTD (e - now)) := by
  refine ⟨?_, ?_, ?_⟩
  · intro h
    simp [get_lease_data, h]
  · intro e he hneg
    have : ¬ (0 ≤ Int.fdiv (e - now) usecPerDay) := by
      rw [fdiv_day_nonneg_iff]
      omega
    simp [get_lease_data, he, this]
  · intro e he hpos
    have : 0 ≤ Int.fdiv (e - now) usecPerDay := (fdiv_day_nonneg_iff _).mpr hpos
    simp [get_lease_data, he, this]

/-- Witness for C6: an `end` one hour in the past gives `""`; an `end` one hour
ahead gives `"1:00:00"`; an absent `end` gives `""`. -/
theorem remaining_sign_handling_witness :
    (get_lease_data 0 3600000000 { exLeaseA with endT := some 0 }).remaining = ""
    ∧ (get_lease_data 0 0 { exLeaseA with endT := some 3600000000 }).remaining
        = formatTD 3600000000
    ∧ (get_lease_data 0 0 exLeaseA).remaining = "" :=
  ⟨(remaining_sign_handling 0 3600000000 { exLeaseA with endT := some 0 }).2.1
      0 rfl (by decide)
  , by
      have h := (remaining_sign_handling 0 0 { exLeaseA with endT := some 3600000000 }).2.2
        3600000000 rfl (by decide)
      simpa using h
  , (remaining_sign_handling 0 0 exLeaseA).1 rfl⟩

/-- C9: the enricher is total and each derived field degrades to `""` on its own
conversion failure independently: each output field is a function of its own
source field alone, so a failure in one conversion neither suppresses nor
alters the other fields. -/
theorem enricher_field_independence (tz now : Int) (l l' : Lease) :
    (fmtDatetimeOpt (utc_to_local tz l.start) = none → (get_lease_data tz now l).start = "")
    ∧ (l.endT = none →
        (get_lease_data tz now l).endT = "" ∧ (get_lease_data tz now l).remaining = "")
    ∧ (∀ e : Int, l.endT = some e → fmtDatetimeOpt (utc_to_local tz e) = none →
        (get_lease_data tz now l).endT = "")
    ∧ (lookupAL pool_key l.sets = none → (get_lease_data tz now l).pool = "")
    ∧ (l.start = l'.start →
        (get_lease_data tz now l).start = (get_lease_data tz now l').start)
    ∧ (l.endT = l'.endT →
        (get_lease_data tz now l).endT = (get_lease_data tz now l').endT
        ∧ (get_lease_data tz now l).remaining = (get_lease_data tz now l').remaining)
    ∧ (l.sets = l'.sets →
        (get_lease_data tz now l).pool = (get_lease_data tz now l').pool)
    ∧ (l.binding_state = l'.binding_state →
        (get_lease_data tz now l).state = (get_lease_data tz now l').state)
    ∧ (l.ip = l'.ip → (get_lease_data tz now l).ip = (get_lease_data tz now l').ip) := by
  refine ⟨?_, ?_, ?_, ?_, ?_, ?_, ?_, ?_, ?_⟩
  · intro h
    simp [get_lease_data, h]
  · intro h
    exact ⟨by simp [get_lease_data, h], by simp [get_lease_data, h]⟩
  · intro e he h
    simp [get_lease_data, he, h]
  · intro h
    simp [get_lease_data, h]
  · intro h
    simp [get_lease_data, h]
  · intro h
    exact ⟨by simp [get_lease_data, h], by simp [get_lease_data, h]⟩
  · intro h
    simp [get_lease_data, h]
  · intro h
    simp [get_lease_data, h]
  · intro h
    simp [get_lease_data, h]

/-- Witness for C9: a record whose `start` timestamp overflows the datetime
range and whose `end` is absent still yields every other field. -/
theorem enricher_field_independence_witness :
    (get_lease_data 0 0 { exLeaseA with start := 999999999999999999 }).start = ""
    ∧ (get_lease_data 0 0 { exLeaseA with start := 999999999999999999 }).remaining = ""
    ∧ (get_lease_data 0 0 { exLeaseA with start := 999999999999999999 }).pool = ""
    ∧ (get_lease_data 0 0 { exLeaseA with start := 999999999999999999 }).state
        = (get_lease_data 0 0 exLeaseA).state :=
  ⟨(enricher_field_independence 0 0 { exLeaseA with start := 999999999999999999 }
      exLeaseA).1 (by decide)
  , ((enricher_field_independence 0 0 { exLeaseA with start := 999999999999999999 }
      exLeaseA).2.1 rfl).2
  , (enricher_field_independence 0 0 { exLeaseA with start := 999999999999999999 }
      exLeaseA).2.2.2.1 rfl
  , (enricher_field_independence 0 0 { exLeaseA with start := 999999999999999999 }
      exLeaseA).2.2.2.2.2.2.2.1 rfl⟩

/-- C7: the state filter passes every lease when the requested set contains the
sentinel `all`; otherwise a lease passes exactly when its binding state is a
member of the requested set. -/
theorem state_filter_all_and_membership (state : List String) (ls : List Lease) :
    ("all" ∈ state → stateFilterStep (.list state) ls = ls)
    ∧ ("all" ∉ state →
        stateFilterStep (.list state) ls
            = ls.filter (fun l => state.contains l.binding_state)
        ∧ ∀ l : Lease,
            l ∈ stateFilterStep (.list state) ls ↔ l ∈ ls ∧ l.binding_state ∈ state) := by
  constructor
  · intro h
    simp [stateFilterStep, stateContains, h]
  · intro h
    refine ⟨by simp [stateFilterStep, stateContains, h], ?_⟩
    intro l
    simp [stateFilterStep, stateContains, h, List.mem_filter]

/-- Witness for C7: filtering two records by `{all}` keeps both; filtering by
`{active}` keeps exactly the active one. -/
theorem state_filter_all_and_membership_witness :
    stateFilterStep (.list ["all"]) exJournal = exJournal
    ∧ stateFilterStep (.list ["active"]) exJournal
        = exJournal.filter (fun l => ["active"].contains l.binding_state) :=
  ⟨(state_filter_all_and_membership ["all"] exJournal).1 (by decide)
  , ((state_filter_all_and_membership ["active"] exJournal).2 (by decide)).1⟩

/-- C3 (failing input): the `__main__` validation tests
`set(args.state) < set(lease_valid_states)` — a STRICT subset — so the query
whose requested states are exactly the full valid enumeration is rejected as an
invalid lease state even though every token is valid and the sort key `ip` is
valid. -/
theorem state_validation_strict_subset_bug :
    validateArgs "ip" lease_valid_states = .invalidState lease_valid_states
    ∧ lease_valid_states.all (fun s => lease_valid_states.contains s) = true
    ∧ lease_display_fields_keys.contains "ip" = true := by
  refine ⟨by decide, by decide, by decide⟩

lemma oElse_none {α : Type} (o : Option α) : oElse o none = o := by
  cases o <;> rfl

lemma oElse_some_absorb {α : Type} (o : Option α) (v : α) (d : Option α) :
    oElse (oElse o (some v)) d = oElse o (some v) := by
  cases o <;> rfl

/-- Looking up after a dict store: the stored key now maps to the new value,
every other key is unchanged. -/
lemma lookupAL_insertAL (m : List (String × Lease)) (k k' : String) (v : Lease) :
    lookupAL k (insertAL m k' v) = if k' == k then some v else lookupAL k m := by
  induction m with
  | nil => simp [insertAL, lookupAL]
  | cons hd tl ih =>
    obtain ⟨k₁, v₁⟩ := hd
    by_cases h1 : k₁ = k'
    · subst h1
      by_cases h2 : k₁ = k
      · subst h2
        simp [insertAL, lookupAL]
      · simp [insertAL, lookupAL, h2]
    · by_cases h2 : k₁ = k
      · subst h2
        simp [insertAL, lookupAL, h1, Ne.symm h1]
      · simp [insertAL, lookupAL, h1, h2, ih]

/-- `getLast?` of a cons, phrased with `oElse`. -/
lemma getLast?_cons_oElse {α : Type} (a : α) (l : List α) :
    (a :: l).getLast? = oElse l.getLast? (some a) := by
  cases l with
  | nil => rfl
  | cons b t =>
    rw [List.getLast?_cons_cons]
    have hne : (b :: t).getLast? ≠ none := by
      simp [List.getLast?_eq_none_iff]
    obtain ⟨z, hz⟩ := Option.ne_none_iff_exists'.mp hne
    rw [hz]
    rfl

/-- The dict fold of the dedup loop: a key's final value is the last record in
scan order bearing that key, falling back to the initial dict. -/
lemma dedup_lookup (k : String) :
    ∀ (ss : List Lease) (m : List (String × Lease)),
      lookupAL k (ss.foldl (fun m l => insertAL m l.ip l) m)
        = oElse ((ss.filter (fun l => l.ip == k)).getLast?) (lookupAL k m) := by
  intro ss
  induction ss with
  | nil =>
    intro m
    rfl
  | cons l ss ih =>
    intro m
    rw [List.foldl_cons, ih, lookupAL_insertAL]
    by_cases hp : (l.ip == k) = true
    · rw [if_pos hp, List.filter_cons, if_pos hp, getLast?_cons_oElse, oElse_some_absorb]
    · rw [if_neg hp, List.filter_cons, if_neg hp]

/-- Keys present after a dict store come from the old keys or are the stored key. -/
lemma insertAL_keys_subset (m : List (String × Lease)) (k : String) (v : Lease) :
    ∀ x ∈ (insertAL m k v).map Prod.fst, x ∈ m.map Prod.fst ∨ x = k := by
  induction m with
  | nil =>
    intro x hx
    simp [insertAL] at hx
    exact Or.inr hx
  | cons hd tl ih =>
    obtain ⟨k₁, v₁⟩ := hd
    intro x hx
    by_cases h : k₁ = k
    · subst h
      rw [show insertAL ((k₁, v₁) :: tl) k₁ v = (k₁, v) :: tl by simp [insertAL]] at hx
      rw [List.map_cons, List.mem_cons] at hx
      rcases hx with rfl | hx'
      · exact Or.inl (by simp)
      · exact Or.inl (by simp [hx'])
    · rw [show insertAL ((k₁, v₁) :: tl) k v = (k₁, v₁) :: insertAL tl k v by
        simp [insertAL, h]] at hx
      rw [List.map_cons, List.mem_cons] at hx
      rcases hx with rfl | hx'
      · exact Or.inl (by simp)
      · rcases ih x hx' with h' | h'
        · exact Or.inl (by simp [h'])
        · exact Or.inr h'

/-- A dict store preserves key distinctness. -/
lemma insertAL_nodup (m : List (String × Lease)) (k : String) (v : Lease)
    (h : (m.map Prod.fst).Nodup) : ((insertAL m k v).map Prod.fst).Nodup := by
  induction m with
  | nil => simp [insertAL]
  | cons hd tl ih =>
    obtain ⟨k₁, v₁⟩ := hd
    rw [List.map_cons, List.nodup_cons] at h
    by_cases hk : k₁ = k
    · subst hk
      simpa [insertAL] using h
    · rw [show insertAL ((k₁, v₁) :: tl) k v = (k₁, v₁) :: insertAL tl k v by
        simp [insertAL, hk]]
      rw [List.map_cons, List.nodup_cons]
      refine ⟨?_, ih h.2⟩
      intro hmem
      rcases insertAL_keys_subset tl k v k₁ hmem with h' | h'
      · exact h.1 h'
      · exact hk h'

/-- A dict store of a record under its own address preserves the invariant that
every stored value's address is its key. -/
lemma insertAL_pairs (m : List (String × Lease)) (k : String) (v : Lease)
    (hv : v.ip = k) (h : ∀ pr ∈ m, (pr.2).ip = pr.1) :
    ∀ pr ∈ insertAL m k v, (pr.2).ip = pr.1 := by
  induction m with
  | nil =>
    simp [insertAL, hv]
  | cons hd tl ih =>
    obtain ⟨k₁, v₁⟩ := hd
    by_cases hk : k₁ = k
    · subst hk
      simp only [insertAL, beq_self_eq_true, if_true]
      intro pr hpr
      rcases List.mem_cons.mp hpr with rfl | h'
      · exact hv
      · exact h _ (List.mem_cons_of_mem _ h')
    · rw [show insertAL ((k₁, v₁) :: tl) k v = (k₁, v₁) :: insertAL tl k v by
        simp [insertAL, hk]]
      intro pr hpr
      rcases List.mem_cons.mp hpr with rfl | h'
      · exact h _ (List.mem_cons_self _ _)
      · exact ih (fun pr hpr => h pr (List.mem_cons_of_mem _ hpr)) pr h'

/-- The dedup dict has distinct keys and each value's address is its key. -/
lemma dedupFold_inv (ss : List Lease) :
    ((dedupFold ss).map Prod.fst).Nodup ∧ ∀ pr ∈ dedupFold ss, (pr.2).ip = pr.1 := by
  suffices h : ∀ (ss : List Lease) (m : List (String × Lease)),
      (m.map Prod.fst).Nodup → (∀ pr ∈ m, (pr.2).ip = pr.1) →
      ((ss.foldl (fun m l => insertAL m l.ip l) m).map Prod.fst).Nodup
      ∧ ∀ pr ∈ ss.foldl (fun m l => insertAL m l.ip l) m, (pr.2).ip = pr.1 by
    exact h ss [] (by simp) (by simp)
  intro ss
  induction ss with
  | nil =>
    intro m h1 h2
    exact ⟨h1, h2⟩
  | cons l ss ih =>
    intro m h1 h2
    exact ih _ (insertAL_nodup _ _ _ h1) (insertAL_pairs _ _ _ rfl h2)

/-- In a dict whose keys miss `k` and whose values sit under their own address,
no value has address `k`. -/
lemma values_filter_nil (k : String) (m : List (String × Lease))
    (hk : k ∉ m.map Prod.fst) (h2 : ∀ pr ∈ m, (pr.2).ip = pr.1) :
    (m.map Prod.snd).filter (fun l => l.ip == k) = [] := by
  induction m with
  | nil => rfl
  | cons hd tl ih =>
    obtain ⟨k₁, v₁⟩ := hd
    have hv : v₁.ip = k₁ := h2 _ (List.mem_cons_self _ _)
    have hk₁ : k₁ ≠ k := by
      intro h
      exact hk (by simp [h])
    rw [List.map_cons, List.filter_cons_of_neg (by simp [hv, hk₁])]
    exact ih (fun h => hk (by simp at h ⊢; exact Or.inr h))
      (fun pr hpr => h2 pr (List.mem_cons_of_mem _ hpr))

/-- Under the dict invariant, the values with address `k` are exactly the
looked-up entry. -/
lemma values_filter_eq_lookup (k : String) (m : List (String × Lease))
    (h1 : (m.map Prod.fst).Nodup) (h2 : ∀ pr ∈ m, (pr.2).ip = pr.1) :
    (m.map Prod.snd).filter (fun l => l.ip == k) = (lookupAL k m).toList := by
  induction m with
  | nil => rfl
  | cons hd tl ih =>
    obtain ⟨k₁, v₁⟩ := hd
    have hv : v₁.ip = k₁ := h2 _ (List.mem_cons_self _ _)
    rw [List.map_cons, List.nodup_cons] at h1
    by_cases hk : k₁ = k
    · subst hk
      rw [List.map_cons, List.filter_cons_of_pos (by simp [hv])]
      rw [values_filter_nil k₁ tl h1.1 (fun pr hpr => h2 pr (List.mem_cons_of_mem _ hpr))]
      simp [lookupAL]
    · rw [List.map_cons, List.filter_cons_of_neg (by simp [hv, hk])]
      rw [ih h1.2 (fun pr hpr => h2 pr (List.mem_cons_of_mem _ hpr))]
      simp [lookupAL, hk]

/-- The records the resolver keeps for address `k` are exactly the last record
for `k` in the start-sorted scan order. -/
lemma resolve_filter_eq (ls : List Lease) (k : String) :
    (resolveLeases ls).filter (fun l => l.ip == k)
      = ((sortByStart ls).filter (fun l => l.ip == k)).getLast?.toList := by
  have hinv := dedupFold_inv (sortByStart ls)
  have h1 := values_filter_eq_lookup k (dedupFold (sortByStart ls)) hinv.1 hinv.2
  have h2 := dedup_lookup k (sortByStart ls) []
  rw [resolveLeases, h1]
  rw [dedupFold] at h1 ⊢
  rw [h2]
  simp [lookupAL, oElse_none]

/-- The resolver's pre-sort is ascending in `start`. -/
lemma sortByStart_pairwise (ls : List Lease) :
    (sortByStart ls).Pairwise (fun a b => a.start ≤ b.start) := by
  haveI : IsTotal Lease (fun a b => a.start ≤ b.start) := ⟨fun a b => le_total a.start b.start⟩
  haveI : IsTrans Lease (fun a b => a.start ≤ b.start) := ⟨fun _ _ _ h h' => le_trans h h'⟩
  exact List.sorted_insertionSort _ ls

/-- Every element of a start-sorted list is bounded by the last element. -/
lemma pairwise_start_le_getLast :
    ∀ (xs : List Lease), xs.Pairwise (fun a b => a.start ≤ b.start) →
      ∀ z, xs.getLast? = some z → ∀ x ∈ xs, x.start ≤ z.start := by
  intro xs
  induction xs with
  | nil =>
    intro _ z hz
    simp at hz
  | cons a t ih =>
    intro hp z hz x hx
    cases t with
    | nil =>
      rw [List.getLast?_singleton] at hz
      rcases List.mem_singleton.mp hx with rfl
      rcases Option.some_inj.mp hz with rfl
      exact le_refl _
    | cons b t' =>
      rw [List.getLast?_cons_cons] at hz
      rcases List.mem_cons.mp hx with rfl | hx'
      · have hz_mem : z ∈ b :: t' := List.mem_of_mem_getLast? (by simp [hz])
        exact (List.pairwise_cons.mp hp).1 z hz_mem
      · exact ih (List.pairwise_cons.mp hp).2 z hz x hx'

/-- The last element of a start-sorted list carries the maximum start of any
permutation of it. -/
lemma sorted_getLast_eq_max (xs ys : List Lease)
    (hperm : xs.Perm ys) (hp : xs.Pairwise (fun a b => a.start ≤ b.start)) :
    xs.getLast?.map Lease.start = (ys.map Lease.start).max? := by
  cases hxs : xs.getLast? with
  | none =>
    have hx : xs = [] := List.getLast?_eq_none_iff.mp hxs
    subst hx
    have hy : ys = [] := List.Perm.eq_nil hperm.symm
    subst hy
    rfl
  | some z =>
    have hzmem : z ∈ xs := List.mem_of_mem_getLast? (by simp [hxs])
    have hbound := pairwise_start_le_getLast xs hp z hxs
    haveI : Std.Antisymm (fun x y : Int => x ≤ y) := ⟨fun h h' => le_antisymm h h'⟩
    rw [Option.map_some']
    symm
    rw [List.max?_eq_some_iff (fun a => le_refl a) (fun a b => max_choice a b)
      (fun a b c => @max_le_iff Int _ b c a)]
    constructor
    · exact List.mem_map.mpr ⟨z, hperm.mem_iff.mp hzmem, rfl⟩
    · intro b hb
      obtain ⟨l', hl', rfl⟩ := List.mem_map.mp hb
      exact hbound l' (hperm.mem_iff.mpr hl')

/-- In a start-sorted list bounded by `m` whose last element has start `m`,
restricting to the records with start `m` keeps the same last element. -/
lemma filter_max_getLast :
    ∀ (xs : List Lease) (m : Int), xs.Pairwise (fun a b => a.start ≤ b.start) →
      (∀ x ∈ xs, x.start ≤ m) →
      ∀ z, xs.getLast? = some z → z.start = m →
        (xs.filter (fun l => l.start == m)).getLast? = some z := by
  intro xs
  induction xs with
  | nil =>
    intro m _ _ z hz
    simp at hz
  | cons a t ih =>
    intro m hp hb z hz hzm
    cases t with
    | nil =>
      rw [List.getLast?_singleton] at hz
      rcases Option.some_inj.mp hz with rfl
      rw [List.filter_cons, if_pos (by simp [hzm])]
      simp
    | cons b t' =>
      rw [List.getLast?_cons_cons] at hz
      have h1 := ih m (List.pairwise_cons.mp hp).2
        (fun x hx => hb x (List.mem_cons_of_mem _ hx)) z hz hzm
      rw [List.filter_cons]
      by_cases ha : (a.start == m) = true
      · rw [if_pos ha, getLast?_cons_oElse, h1]
        rfl
      · rw [if_neg ha]
        exact h1

/-- C1: the resolver (the dedup step of `get_leases`) keeps exactly one record
per distinct address; the survivor's `start` is the maximum `start` among the
records sharing that address; and when several records share that identical
maximum `start`, the survivor is the one appearing last after the stable
ascending sort by `start` (i.e. last in original order among the tied records). -/
theorem dhcp_dedup_correct (ls : List Lease) (k : String) :
    ((resolveLeases ls).filter (fun l => l.ip == k)).length
        = (if (ls.map Lease.ip).contains k then 1 else 0)
    ∧ ((resolveLeases ls).filter (fun l => l.ip == k)).map Lease.start
        = ((ls.filter (fun l => l.ip == k)).map Lease.start).max?.toList
    ∧ ∀ m : Int, ((ls.filter (fun l => l.ip == k)).map Lease.start).max? = some m →
        (resolveLeases ls).filter (fun l => l.ip == k)
          = (ls.filter (fun l => l.ip == k && l.start == m)).getLast?.toList := by
  have hperm0 : (sortByStart ls).Perm ls := List.perm_insertionSort _ ls
  have hpermF : ((sortByStart ls).filter (fun l => l.ip == k)).Perm
      (ls.filter (fun l => l.ip == k)) := hperm0.filter _
  have hsortedF : ((sortByStart ls).filter (fun l => l.ip == k)).Pairwise
      (fun a b => a.start ≤ b.start) := (sortByStart_pairwise ls).filter _
  have hstar := resolve_filter_eq ls k
  have hmax := sorted_getLast_eq_max _ _ hpermF hsortedF
  refine ⟨?_, ?_, ?_⟩
  · rw [hstar]
    by_cases hk : (ls.map Lease.ip).contains k = true
    · have hkm : k ∈ ls.map Lease.ip := by simpa using hk
      obtain ⟨l, hl, hlk⟩ := List.mem_map.mp hkm
      have hmem : l ∈ ls.filter (fun l => l.ip == k) :=
        List.mem_filter.mpr ⟨hl, by simp [hlk]⟩
      have hmemF : l ∈ (sortByStart ls).filter (fun l => l.ip == k) :=
        hpermF.mem_iff.mpr hmem
      have hne : (sortByStart ls).filter (fun l => l.ip == k) ≠ [] := by
        intro h
        rw [h] at hmemF
        exact List.not_mem_nil l hmemF
      obtain ⟨z, hz⟩ := Option.ne_none_iff_exists'.mp
        (fun h => hne (List.getLast?_eq_none_iff.mp h))
      rw [hz, if_pos hk]
      rfl
    · have hkm : k ∉ ls.map Lease.ip := fun h => hk (by simp [h])
      have hnil : ls.filter (fun l => l.ip == k) = [] := by
        rw [List.filter_eq_nil_iff]
        intro a ha hcon
        exact hkm (List.mem_map.mpr ⟨a, ha, by simpa using hcon⟩)
      have hnil2 : (sortByStart ls).filter (fun l => l.ip == k) = [] :=
        List.Perm.eq_nil (hnil ▸ hpermF)
      rw [hnil2, if_neg hk]
      rfl
  · rw [hstar, ← hmax]
    cases ((sortByStart ls).filter (fun l => l.ip == k)).getLast? <;> rfl
  · intro m hm
    have h2 : ((sortByStart ls).filter (fun l => l.ip == k)).getLast?.map Lease.start
        = some m := by
      rw [hmax]
      exact hm
    obtain ⟨z, hz, hzs⟩ := Option.map_eq_some'.mp h2
    haveI : Std.Antisymm (fun x y : Int => x ≤ y) := ⟨fun h h' => le_antisymm h h'⟩
    have hboundL : ∀ b ∈ (ls.filter (fun l => l.ip == k)).map Lease.start, b ≤ m :=
      ((List.max?_eq_some_iff (fun a => le_refl a) (fun a b => max_choice a b)
        (fun a b c => @max_le_iff Int _ b c a)).mp hm).2
    have hpairC : (ls.filter (fun l => l.ip == k && l.start == m)).Pairwise
        (fun a b => a.start ≤ b.start) := by
      apply List.pairwise_of_forall_mem_list
      intro x hx y hy
      have hxm : x.start = m := by
        have h := (List.mem_filter.mp hx).2
        simp at h
        exact h.2
      have hym : y.start = m := by
        have h := (List.mem_filter.mp hy).2
        simp at h
        exact h.2
      simp [hxm, hym]
    have hsubSS : (ls.filter (fun l => l.ip == k && l.start == m)).Sublist (sortByStart ls) := by
      rw [sortByStart]
      exact List.sublist_insertionSort hpairC (List.filter_sublist ls)
    have hfq : (sortByStart ls).filter (fun l => l.ip == k && l.start == m)
        = ls.filter (fun l => l.ip == k && l.start == m) := by
      have h1 : ((ls.filter (fun l => l.ip == k && l.start == m)).filter
          (fun l => l.ip == k && l.start == m)).Sublist
          ((sortByStart ls).filter (fun l => l.ip == k && l.start == m)) :=
        hsubSS.filter _
      rw [List.filter_eq_self.mpr (fun a ha => (List.mem_filter.mp ha).2)] at h1
      have hlen : ((sortByStart ls).filter (fun l => l.ip == k && l.start == m)).length
          = (ls.filter (fun l => l.ip == k && l.start == m)).length := by
        rw [← List.countP_eq_length_filter, ← List.countP_eq_length_filter]
        exact List.Perm.countP_eq _ hperm0
      exact (h1.eq_of_length hlen.symm).symm
    have hsplit : (sortByStart ls).filter (fun l => l.ip == k && l.start == m)
        = ((sortByStart ls).filter (fun l => l.ip == k)).filter (fun l => l.start == m) := by
      rw [List.filter_filter]
      apply List.filter_congr
      intro x _
      exact Bool.and_comm _ _
    have hboundF : ∀ x ∈ (sortByStart ls).filter (fun l => l.ip == k), x.start ≤ m :=
      fun x hx => hboundL x.start (List.mem_map.mpr ⟨x, hpermF.mem_iff.mp hx, rfl⟩)
    have hlast := filter_max_getLast _ m hsortedF hboundF z hz hzs
    rw [hstar, hz, ← hfq, hsplit, hlast]

/-- Witness for C1: on the two-record journal for 10.0.0.5 the survivor is the
record with the larger start. -/
theorem dhcp_dedup_correct_witness :
    (resolveLeases exJournal).filter (fun l => l.ip == "10.0.0.5")
      = (exJournal.filter (fun l => l.ip == "10.0.0.5" && l.start == 60000000)).getLast?.toList
    ∧ ((exJournal.filter (fun l => l.ip == "10.0.0.5")).map Lease.start).max?
        = some 60000000 :=
  ⟨(dhcp_dedup_correct exJournal "10.0.0.5").2.2 60000000 (by decide), by decide⟩

/-- The resolver only keeps records whose `start` is maximal among the records
of its input that share the same address. -/
lemma resolve_max_start (ls : List Lease) :
    ∀ l ∈ resolveLeases ls, ∀ l' ∈ ls, l'.ip = l.ip → l'.start ≤ l.start := by
  intro l hl l' hl' hip
  have hstar := resolve_filter_eq ls l.ip
  have hmem : l ∈ (resolveLeases ls).filter (fun x => x.ip == l.ip) :=
    List.mem_filter.mpr ⟨hl, by simp⟩
  rw [hstar] at hmem
  have hz : ((sortByStart ls).filter (fun x => x.ip == l.ip)).getLast? = some l := by
    cases h : ((sortByStart ls).filter (fun x => x.ip == l.ip)).getLast? with
    | none =>
      rw [h] at hmem
      simp at hmem
    | some z =>
      rw [h] at hmem
      simp at hmem
      rw [hmem]
  have hsortedF := (sortByStart_pairwise ls).filter (fun x => x.ip == l.ip)
  have hperm0 : (sortByStart ls).Perm ls := List.perm_insertionSort _ ls
  have hl'F : l' ∈ (sortByStart ls).filter (fun x => x.ip == l.ip) :=
    List.mem_filter.mpr ⟨hperm0.mem_iff.mpr hl', by simp [hip]⟩
  exact pairwise_start_le_getLast _ hsortedF l hz l' hl'F

/-- C2 (counterexample): with the journal `[active at start 0, expired at start
60000000]` for one address and requested states `{active}`, the code emits the
OLDER active record — the state filter runs before the resolver — while the
claimed order (resolve the full journal first, filter the resolved records
after) would emit nothing.  The record chosen for the address is therefore not
the greatest-start record among all journal records and not independent of the
requested state set. -/
theorem resolver_order_counterexample :
    ((get_leases cfgAll exJournal [] (.list ["active"]) none "ip" 0 0).emitted).map
        LeaseData.state = ["active"]
    ∧ ((spec_get_leases cfgAll exJournal (.list ["active"]) none "ip" 0 0).emitted) = []
    ∧ exLeaseA.start < exLeaseB.start
    ∧ exLeaseA.ip = exLeaseB.ip
    ∧ exLeaseB.binding_state = "expired" := by
  refine ⟨?_, ?_, ?_, ?_, ?_⟩ <;> decide

/-- C2 (amended): the state and pool filters are applied to the parsed records
BEFORE resolution; when the requested pool exists (or no pool is requested),
the output is the enriched, sorted resolution of the pre-filtered journal, and
the record resolved for an address has the greatest `start` among the journal
records that pass the filters — not among all journal records. -/
theorem filter_then_resolve_amended (config : Config) (journal junk : List Lease)
    (state : StateArg) (pool : Option String) (sortKey : String) (tz now : Int)
    (hp : ∀ p, pool = some p → config.poolExists p = true) :
    get_leases config journal junk state pool sortKey tz now
        = .ok (finalSort sortKey
            ((resolveLeases (preFiltered config state pool journal)).map
              (get_lease_data tz now)))
    ∧ ∀ l ∈ resolveLeases (preFiltered config state pool journal),
        ∀ l' ∈ preFiltered config state pool journal, l'.ip = l.ip → l'.start ≤ l.start := by
  constructor
  · cases pool with
    | none => rfl
    | some p =>
      have hpe := hp p rfl
      simp [get_leases, preFiltered, hpe]
  · exact resolve_max_start _

/-- Witness for C2's amended theorem at a concrete query. -/
theorem filter_then_resolve_amended_witness :
    get_leases cfgAll exJournal [] (.list ["active"]) none "ip" 0 0
        = .ok (finalSort "ip"
            ((resolveLeases (preFiltered cfgAll (.list ["active"]) none exJournal)).map
              (get_lease_data 0 0))) :=
  (filter_then_resolve_amended cfgAll exJournal [] (.list ["active"]) none "ip" 0 0
    (fun _ h => nomatch h)).1

/-- Accumulating `acc + f x` over a list equals the initial value plus the sum
of the images. -/
lemma foldl_add_eq_sum {α : Type} (f : α → Int) :
    ∀ (xs : List α) (a : Int), xs.foldl (fun acc x => acc + f x) a = a + (xs.map f).sum := by
  intro xs
  induction xs with
  | nil =>
    intro a
    simp
  | cons x xs ih =>
    intro a
    rw [List.foldl_cons, ih, List.map_cons, List.sum_cons]
    ring

/-- `get_pool_size` computes the double sum of inclusive range sizes. -/
lemma get_pool_size_eq_sum (config : Config) (p : String) :
    get_pool_size config p
      = ((config.listSubnets p).map (fun s =>
          ((config.listRanges p s).map (fun r =>
            (ip_address_int (config.rangeStop p s r) : Int)
              - (ip_address_int (config.rangeStart p s r) : Int) + 1)).sum)).sum := by
  rw [get_pool_size]
  suffices h : ∀ (subs : List String) (a : Int),
      subs.foldl (fun size s => (config.listRanges p s).foldl
        (fun size r => size + ((ip_address_int (config.rangeStop p s r) : Int)
          - (ip_address_int (config.rangeStart p s r) : Int) + 1)) size) a
      = a + (subs.map (fun s => ((config.listRanges p s).map (fun r =>
          (ip_address_int (config.rangeStop p s r) : Int)
            - (ip_address_int (config.rangeStart p s r) : Int) + 1)).sum)).sum by
    rw [h]
    ring
  intro subs
  induction subs with
  | nil =>
    intro a
    simp
  | cons s subs ih =>
    intro a
    rw [List.foldl_cons, foldl_add_eq_sum, ih, List.map_cons, List.sum_cons]
    ring

/-- C5: for an existing pool the statistics row satisfies: capacity is the sum
over all ranges of `(stop - start + 1)` in exact integer address arithmetic;
`available = capacity - activeLeaseCount`; utilization is
`round(activeLeaseCount / capacity * 100)` when capacity is non-zero and `0`
when capacity is zero (never an arithmetic failure). -/
theorem pool_stat_correct (config : Config) (journal : List Lease) (tz now : Int)
    (p : String) (_hp : config.poolExists p = true) :
    (pool_stat config journal tz now p).size
        = ((config.listSubnets p).map (fun s =>
            ((config.listRanges p s).map (fun r =>
              (ip_address_int (config.rangeStop p s r) : Int)
                - (ip_address_int (config.rangeStart p s r) : Int) + 1)).sum)).sum
    ∧ (pool_stat config journal tz now p).available
        = (pool_stat config journal tz now p).size
            - (pool_stat config journal tz now p).leases
    ∧ ((pool_stat config journal tz now p).size = 0 →
        (pool_stat config journal tz now p).percentage = 0)
    ∧ ((pool_stat config journal tz now p).size ≠ 0 →
        (pool_stat config journal tz now p).percentage
          = pythonRound (((pool_stat config journal tz now p).leases : ℚ)
              / ((pool_stat config journal tz now p).size : ℚ) * 100)) := by
  refine ⟨?_, ?_, ?_, ?_⟩
  · exact get_pool_size_eq_sum config p
  · rfl
  · intro h0
    have h0' : get_pool_size config p = 0 := h0
    simp [pool_stat, h0']
  · intro h0
    have h0' : get_pool_size config p ≠ 0 := h0
    simp [pool_stat, h0']

/-- Witness for C5: the pool with ranges `[192.0.2.10, 192.0.2.20]` and
`[192.0.2.30, 192.0.2.30]` has capacity `11 + 1 = 12` and, with no leases,
100 − 0 available is 12; a pool with no subnets reports utilization `0`. -/
theorem pool_stat_correct_witness :
    (pool_stat cfgLan [] 0 0 "LAN").size
        = ((cfgLan.listSubnets "LAN").map (fun s =>
            ((cfgLan.listRanges "LAN" s).map (fun r =>
              (ip_address_int (cfgLan.rangeStop "LAN" s r) : Int)
                - (ip_address_int (cfgLan.rangeStart "LAN" s r) : Int) + 1)).sum)).sum
    ∧ (pool_stat cfgLan [] 0 0 "LAN").size = 12
    ∧ (pool_stat cfgLan [] 0 0 "LAN").available
        = (pool_stat cfgLan [] 0 0 "LAN").size - (pool_stat cfgLan [] 0 0 "LAN").leases
    ∧ (pool_stat cfgAll [] 0 0 "EMPTY").percentage = 0 :=
  ⟨(pool_stat_correct cfgLan [] 0 0 "LAN" (by decide)).1
  , by decide
  , (pool_stat_correct cfgLan [] 0 0 "LAN" (by decide)).2.1
  , (pool_stat_correct cfgAll [] 0 0 "EMPTY" rfl).2.2.1 (by decide)⟩

/-- Totality of Python's lexicographic string comparison. -/
lemma strLeList_total : ∀ (as bs : List Char), (strLeList as bs || strLeList bs as) = true := by
  intro as
  induction as with
  | nil =>
    intro bs
    simp [strLeList]
  | cons a as ih =>
    intro bs
    cases bs with
    | nil => simp [strLeList]
    | cons b bs =>
      by_cases h1 : a.toNat < b.toNat
      · have h2 : ¬ b.toNat < a.toNat := by omega
        simp [strLeList, h1, h2]
      · by_cases h2 : b.toNat < a.toNat
        · simp [strLeList, h1, h2]
        · simp only [strLeList, if_neg h1, if_neg h2]
          exact ih bs

/-- Transitivity of Python's lexicographic string comparison. -/
lemma strLeList_trans : ∀ (as bs cs : List Char), strLeList as bs = true →
    strLeList bs cs = true → strLeList as cs = true := by
  intro as
  induction as with
  | nil =>
    intro bs cs _ _
    simp [strLeList]
  | cons a as ih =>
    intro bs cs h1 h2
    cases bs with
    | nil => simp [strLeList] at h1
    | cons b bs =>
      cases cs with
      | nil => simp [strLeList] at h2
      | cons c cs =>
        simp only [strLeList] at h1 h2 ⊢
        by_cases hab : a.toNat < b.toNat
        · by_cases hbc : b.toNat < c.toNat
          · rw [if_pos (show a.toNat < c.toNat by omega)]
          · by_cases hcb : c.toNat < b.toNat
            · rw [if_neg hbc, if_pos hcb] at h2
              exact absurd h2 (by simp)
            · rw [if_pos (show a.toNat < c.toNat by omega)]
        · by_cases hba : b.toNat < a.toNat
          · rw [if_neg hab, if_pos hba] at h1
            exact absurd h1 (by simp)
          · by_cases hbc : b.toNat < c.toNat
            · rw [if_pos (show a.toNat < c.toNat by omega)]
            · by_cases hcb : c.toNat < b.toNat
              · rw [if_neg hbc, if_pos hcb] at h2
                exact absurd h2 (by simp)
              · rw [if_neg hab, if_neg hba] at h1
                rw [if_neg hbc, if_neg hcb] at h2
                rw [if_neg (show ¬ a.toNat < c.toNat by omega),
                  if_neg (show ¬ c.toNat < a.toNat by omega)]
                exact ih bs cs h1 h2

/-- C8: with sort key `ip` the output is ordered by the numeric integer value
of each address (never lexicographically) and is a permutation of the input;
with any other sort key the output is ordered by Python string comparison of
that field's value; and the spec's concrete example
`["10.0.0.10", "10.0.0.2", "10.0.0.1"]` sorts to
`["10.0.0.1", "10.0.0.2", "10.0.0.10"]`. -/
theorem final_sort_numeric_ip (ds : List LeaseData) (k : String) :
    (finalSort "ip" ds).Pairwise (fun a b => ip_address_int a.ip ≤ ip_address_int b.ip)
    ∧ (finalSort "ip" ds).Perm ds
    ∧ (k ≠ "ip" →
        (finalSort k ds).Pairwise
          (fun a b => pyStrLe (LeaseData.get a k) (LeaseData.get b k) = true)
        ∧ (finalSort k ds).Perm ds)
    ∧ (finalSort "ip" [mkIpOnly "10.0.0.10", mkIpOnly "10.0.0.2", mkIpOnly "10.0.0.1"]).map
        LeaseData.ip = ["10.0.0.1", "10.0.0.2", "10.0.0.10"] := by
  have hkey : ("ip" == "ip") = true := rfl
  refine ⟨?_, ?_, ?_, ?_⟩
  · haveI : IsTotal LeaseData (fun a b => ip_address_int a.ip ≤ ip_address_int b.ip) :=
      ⟨fun _ _ => le_total _ _⟩
    haveI : IsTrans LeaseData (fun a b => ip_address_int a.ip ≤ ip_address_int b.ip) :=
      ⟨fun _ _ _ h h' => le_trans h h'⟩
    rw [finalSort, if_pos hkey]
    exact List.sorted_insertionSort _ ds
  · rw [finalSort, if_pos hkey]
    exact List.perm_insertionSort _ ds
  · intro hk
    have hk' : ¬ ((k == "ip") = true) := by
      simp [hk]
    haveI : IsTotal LeaseData
        (fun a b => pyStrLe (LeaseData.get a k) (LeaseData.get b k) = true) :=
      ⟨fun a b => by
        cases h' : strLeList (LeaseData.get a k).toList (LeaseData.get b k).toList with
        | true => exact Or.inl h'
        | false =>
          have h := strLeList_total (LeaseData.get a k).toList (LeaseData.get b k).toList
          rw [h'] at h
          simp at h
          exact Or.inr h⟩
    haveI : IsTrans LeaseData
        (fun a b => pyStrLe (LeaseData.get a k) (LeaseData.get b k) = true) :=
      ⟨fun _ _ _ h h' => strLeList_trans _ _ _ h h'⟩
    constructor
    · rw [finalSort, if_neg hk']
      exact List.sorted_insertionSort _ ds
    · rw [finalSort, if_neg hk']
      exact List.perm_insertionSort _ ds
  · decide

/-- Witness for C8: sorting two records by the `hostname` field is a
permutation of the input, and the numeric example holds. -/
theorem final_sort_numeric_ip_witness :
    (finalSort "hostname" [mkIpOnly "b", mkIpOnly "a"]).Perm [mkIpOnly "b", mkIpOnly "a"]
    ∧ (finalSort "ip" [mkIpOnly "10.0.0.10", mkIpOnly "10.0.0.2", mkIpOnly "10.0.0.1"]).map
        LeaseData.ip = ["10.0.0.1", "10.0.0.2", "10.0.0.10"] :=
  ⟨((final_sort_numeric_ip [mkIpOnly "b", mkIpOnly "a"] "hostname").2.2.1
      (by decide)).2
  , (final_sort_numeric_ip [] "x").2.2.2⟩
